import Mathlib

/-!
Verification of the BFHL service (`src/index.js`, with the near-duplicate
variant `src/unnamed/part_000`) against its natural-language specification.

The JavaScript source is shallowly embedded: JSON values become the
inductive type `JsVal`, the pure numeric helpers become Lean functions on
`Int`/`Nat` (the service validates its numeric inputs into small integer
ranges, so JavaScript numbers are modelled as exact integers), the AI
bridge becomes a function parameterised by an abstract provider, and the
`POST /bfhl` route handler becomes a total function from a decoded body to
a response record.
-/

set_option maxRecDepth 4000

namespace Bfhl

/-! ## Numeric helpers (src/index.js lines 19-75) -/

/-- The `while (b !== 0)` loop of `gcd` (src/index.js lines 47-51): each
iteration replaces `(a, b)` by `(b, a % b)`.  Both values are non-negative
after the initial `Math.abs`, so the loop state lives in `Nat`. -/
def gcdLoop (a b : Nat) : Nat :=
  if h : b = 0 then a else gcdLoop b (a % b)
termination_by b
decreasing_by
  exact Nat.mod_lt _ (Nat.pos_of_ne_zero h)

/-- Source `gcd(a, b)` (src/index.js lines 44-53): takes absolute values, then runs
the Euclidean loop. -/
def gcd (a b : Int) : Int :=
  (gcdLoop a.natAbs b.natAbs : Nat)

/-- The body of the `for` loop of `fibonacci` (src/index.js lines 23-25):
push `series[i-1] + series[i-2]` onto the series.  The loop counter `i`
always equals `series.length`, and the loop runs `n - 2` times; the
remaining iteration count is the structural recursion argument.  The
addition here is the exact-integer idealization of the source's double
addition; the double-faithful variant is `fibGoFloat` below, and the
Fibonacci claim is settled against the faithful variant. -/
def fibGo : Nat → List Int → List Int
  | 0, s => s
  | k + 1, s => fibGo k (s ++ [s.getD (s.length - 1) 0 + s.getD (s.length - 2) 0])

/-- Source `fibonacci(n)` (src/index.js lines 19-27). -/
def fibonacci (n : Int) : List Int :=
  if n ≤ 0 then []
  else if n = 1 then [0]
  else fibGo (n.toNat - 2) [0, 1]

/-- The `for (let i = 3; i * i <= num; i += 2)` trial-division loop of
`isPrime` (src/index.js lines 33-35).  It is only reached with `num ≥ 3`,
so the loop state lives in `Nat`. -/
def primeGo (num i : Nat) : Bool :=
  if i * i ≤ num then
    (if num % i = 0 then false else primeGo num (i + 2))
  else true
termination_by num + 2 - i
decreasing_by
  rename_i hle
  rcases Nat.eq_zero_or_pos i with h0 | h0
  · omega
  · have hii : i ≤ i * i := Nat.le_mul_of_pos_left i h0
    omega

/-- Source `isPrime(num)` (src/index.js lines 29-37). -/
def isPrime (num : Int) : Bool :=
  if num < 2 then false
  else if num = 2 then true
  else if num % 2 = 0 then false
  else primeGo num.toNat 3

/-! ## Correctness of the Euclidean loop -/

theorem gcdLoop_eq_gcd (a b : Nat) : gcdLoop a b = Nat.gcd a b := by
  induction b using Nat.strong_induction_on generalizing a with
  | _ b ih =>
    rw [gcdLoop]
    by_cases hb : b = 0
    · subst hb; simp
    · rw [dif_neg hb, ih (a % b) (Nat.mod_lt _ (Nat.pos_of_ne_zero hb)) b]
      rw [Nat.gcd_comm b (a % b), ← Nat.gcd_rec b a, Nat.gcd_comm b a]

theorem gcd_eq_natGcd (a b : Int) : gcd a b = (Nat.gcd a.natAbs b.natAbs : Int) := by
  rw [gcd, gcdLoop_eq_gcd]

/-! ## Properties of `fibonacci` -/

/-- The shape asserted by the spec for a Fibonacci series: starts `0, 1`
and each later element is the sum of the previous two. -/
def FibSeq (s : List Int) : Prop :=
  s.getD 0 0 = 0 ∧ s.getD 1 0 = 1 ∧
    ∀ j : Nat, 2 ≤ j → j < s.length →
      s.getD j 0 = s.getD (j - 1) 0 + s.getD (j - 2) 0

theorem fibGo_length (k : Nat) (s : List Int) :
    (fibGo k s).length = s.length + k := by
  induction k generalizing s with
  | zero => simp [fibGo]
  | succ k ih => rw [fibGo, ih]; simp; omega

theorem getD_append_lt (s t : List Int) (j : Nat) (h : j < s.length) :
    (s ++ t).getD j 0 = s.getD j 0 := by
  simp [List.getD_eq_getElem?_getD, List.getElem?_append, h]

theorem getD_append_self (s : List Int) (x : Int) :
    (s ++ [x]).getD s.length 0 = x := by
  simp [List.getD_eq_getElem?_getD, List.getElem?_append]

theorem fibGo_fibSeq (k : Nat) (s : List Int) (h2 : 2 ≤ s.length)
    (hs : FibSeq s) : FibSeq (fibGo k s) := by
  induction k generalizing s with
  | zero => exact hs
  | succ k ih =>
    rw [fibGo]
    have hlen1 : s.length - 1 < s.length := by omega
    have hlen2 : s.length - 2 < s.length := by omega
    refine ih _ (by simp; omega) ?_
    obtain ⟨h0, h1, hrec⟩ := hs
    refine ⟨?_, ?_, ?_⟩
    · rw [getD_append_lt _ _ _ (by omega)]; exact h0
    · rw [getD_append_lt _ _ _ (by omega)]; exact h1
    · intro j hj2 hjlt
      simp at hjlt
      rcases Nat.lt_or_ge j s.length with hj | hj
      · rw [getD_append_lt _ _ _ hj, getD_append_lt _ _ _ (by omega),
          getD_append_lt _ _ _ (by omega)]
        exact hrec j hj2 hj
      · have hj' : j = s.length := by omega
        subst hj'
        rw [getD_append_self, getD_append_lt _ _ _ hlen1, getD_append_lt _ _ _ hlen2]

theorem fibonacci_two_le (n : Int) (h : 2 ≤ n) :
    fibonacci n = fibGo (n.toNat - 2) [0, 1] := by
  rw [fibonacci, if_neg (by omega), if_neg (by omega)]

/-! ## Correctness of the trial-division primality test -/

theorem primeGo_iff_aux (fuel : Nat) :
    ∀ num i : Nat, num + 2 - i ≤ fuel → i % 2 = 1 →
      (primeGo num i = true ↔
        ∀ d : Nat, i ≤ d → d % 2 = 1 → d * d ≤ num → num % d ≠ 0) := by
  induction fuel with
  | zero =>
    intro num i hfuel hodd
    have hbig : ¬ i * i ≤ num := by
      intro hle
      have : i ≤ i * i := Nat.le_mul_of_pos_left i (by omega)
      omega
    rw [primeGo, if_neg hbig]
    refine iff_of_true rfl ?_
    intro d hd hdodd hdd
    have hdd' : d ≤ d * d := Nat.le_mul_of_pos_left d (by omega)
    omega
  | succ fuel ih =>
    intro num i hfuel hodd
    rw [primeGo]
    by_cases hii : i * i ≤ num
    · rw [if_pos hii]
      have hipos : 1 ≤ i := by omega
      have hile : i ≤ i * i := Nat.le_mul_of_pos_left i hipos
      by_cases hdvd : num % i = 0
      · rw [if_pos hdvd]
        refine iff_of_false (by simp) ?_
        intro hall
        exact hall i le_rfl hodd hii hdvd
      · rw [if_neg hdvd]
        have harg1 : num + 2 - (i + 2) ≤ fuel := by omega
        have harg2 : (i + 2) % 2 = 1 := by omega
        have hih := ih num (i + 2) harg1 harg2
        rw [hih]
        constructor
        · intro h d hd hdodd hdd
          rcases Nat.eq_or_lt_of_le hd with heq | hlt
          · subst heq; exact hdvd
          · exact h d (by omega) hdodd hdd
        · intro h d hd hdodd hdd
          exact h d (by omega) hdodd hdd
    · rw [if_neg hii]
      refine iff_of_true rfl ?_
      intro d hd hdodd hdd
      have : i * i ≤ d * d := Nat.mul_le_mul hd hd
      omega

theorem primeGo_iff (num i : Nat) (hodd : i % 2 = 1) :
    primeGo num i = true ↔
      ∀ d : Nat, i ≤ d → d % 2 = 1 → d * d ≤ num → num % d ≠ 0 :=
  primeGo_iff_aux (num + 2 - i) num i le_rfl hodd

/-- The code's `isPrime` agrees with mathematical primality: it returns
`true` exactly on the strictly positive integers whose value is a prime
number. -/
theorem isPrime_iff (num : Int) :
    isPrime num = true ↔ 0 < num ∧ Nat.Prime num.toNat := by
  rw [isPrime]
  by_cases hlt : num < 2
  · rw [if_pos hlt]
    refine iff_of_false (by simp) ?_
    rintro ⟨hpos, hp⟩
    have h2 : 2 ≤ num.toNat := hp.two_le
    omega
  · rw [if_neg hlt]
    by_cases h2 : num = 2
    · subst h2
      rw [if_pos rfl]
      refine iff_of_true rfl ⟨by norm_num, ?_⟩
      decide
    · rw [if_neg h2]
      have h3 : 3 ≤ num := by omega
      by_cases heven : num % 2 = 0
      · rw [if_pos heven]
        refine iff_of_false (by simp) ?_
        rintro ⟨hpos, hp⟩
        have hdvd2 : 2 ∣ num.toNat := by
          apply Nat.dvd_of_mod_eq_zero
          omega
        rcases (Nat.Prime.eq_one_or_self_of_dvd hp 2 hdvd2) with hc | hc
        · omega
        · omega
      · rw [if_neg heven]
        set m : Nat := num.toNat with hm
        have hm3 : 3 ≤ m := by omega
        have hmodd : m % 2 = 1 := by omega
        rw [primeGo_iff m 3 (by norm_num)]
        constructor
        · intro h
          refine ⟨by omega, ?_⟩
          by_contra hnp
          have hpfac : m.minFac.Prime := Nat.minFac_prime (by omega)
          have hdvd : m.minFac ∣ m := Nat.minFac_dvd m
          have hsq : m.minFac * m.minFac ≤ m := by
            have := Nat.minFac_sq_le_self (by omega) hnp
            nlinarith [this]
          have hodd : m.minFac % 2 = 1 := by
            rcases Nat.mod_two_eq_zero_or_one m.minFac with he | ho
            · exfalso
              have h2d : 2 ∣ m.minFac := Nat.dvd_of_mod_eq_zero he
              have : (2 : Nat) ∣ m := dvd_trans h2d hdvd
              have := Nat.mod_eq_zero_of_dvd this
              omega
            · exact ho
          have hge3 : 3 ≤ m.minFac := by
            have := hpfac.two_le
            omega
          have hmod0 : m % m.minFac = 0 := by
            rcases hdvd with ⟨c, hc⟩
            nth_rewrite 1 [hc]
            exact Nat.mul_mod_right _ _
          exact h m.minFac hge3 hodd hsq hmod0
        · rintro ⟨hpos, hp⟩ d hd3 hdodd hdd hmod
          have hdvd : d ∣ m := Nat.dvd_of_mod_eq_zero hmod
          rcases hp.eq_one_or_self_of_dvd d hdvd with hc | hc
          · omega
          · have h3d : 3 * d ≤ d * d := Nat.mul_le_mul_right d hd3
            omega

/-! ## Folds of pairwise lcm and gcd -/

/-- One iteration of the `lcmOfArray` loop (src/index.js line 61):
`result = (result * nums[i]) / gcd(result, nums[i])`, with the source's
double multiplication and division idealized as exact integer
arithmetic; the double-faithful variant is `lcmStepFloat` below, and the
lcm claim is settled against the faithful variant. -/
def lcmStep (r n : Int) : Int := r * n / gcd r n

theorem foldl_lcm_spec (l : List Nat) : ∀ init : Nat,
    init ∣ l.foldl Nat.lcm init ∧
    (∀ x ∈ l, x ∣ l.foldl Nat.lcm init) ∧
    (∀ m : Nat, init ∣ m → (∀ x ∈ l, x ∣ m) → l.foldl Nat.lcm init ∣ m) := by
  induction l with
  | nil => exact fun init => ⟨dvd_rfl, by simp, fun m hm _ => hm⟩
  | cons x l ih =>
    intro init
    obtain ⟨h1, h2, h3⟩ := ih (Nat.lcm init x)
    refine ⟨dvd_trans (Nat.dvd_lcm_left init x) h1, ?_, ?_⟩
    · intro y hy
      rcases List.mem_cons.mp hy with hy | hy
      · subst hy; exact dvd_trans (Nat.dvd_lcm_right init y) h1
      · exact h2 y hy
    · intro m hm hall
      exact h3 m (Nat.lcm_dvd hm (hall x (List.mem_cons_self x l))) fun y hy =>
        hall y (List.mem_cons_of_mem x hy)

theorem foldl_lcm_pos (l : List Nat) : ∀ init : Nat, 0 < init →
    (∀ x ∈ l, 0 < x) → 0 < l.foldl Nat.lcm init := by
  induction l with
  | nil => exact fun init h _ => h
  | cons x l ih =>
    intro init hinit hall
    refine ih (Nat.lcm init x) ?_ fun y hy => hall y (List.mem_cons_of_mem x hy)
    have hx : 0 < x := hall x (List.mem_cons_self x l)
    exact Nat.pos_of_ne_zero (Nat.lcm_ne_zero (by omega) (by omega))

theorem foldl_gcd_spec (l : List Nat) : ∀ init : Nat,
    l.foldl Nat.gcd init ∣ init ∧ (∀ x ∈ l, l.foldl Nat.gcd init ∣ x) := by
  induction l with
  | nil => exact fun init => ⟨dvd_rfl, by simp⟩
  | cons x l ih =>
    intro init
    obtain ⟨h1, h2⟩ := ih (Nat.gcd init x)
    refine ⟨dvd_trans h1 (Nat.gcd_dvd_left init x), ?_⟩
    intro y hy
    rcases List.mem_cons.mp hy with hy | hy
    · subst hy; exact dvd_trans h1 (Nat.gcd_dvd_right init y)
    · exact h2 y hy

theorem lcmStep_pos_eq (r n : Int) (hr : 0 < r) (hn : 0 < n) :
    lcmStep r n = (Nat.lcm r.natAbs n.natAbs : Int) ∧ 0 < lcmStep r n := by
  have hreq : (r.natAbs : Int) = r := Int.natAbs_of_nonneg (by omega)
  have hneq : (n.natAbs : Int) = n := Int.natAbs_of_nonneg (by omega)
  have heq : lcmStep r n = (Nat.lcm r.natAbs n.natAbs : Int) := by
    rw [lcmStep, gcd_eq_natGcd, ← hreq, ← hneq]
    rw [← Int.natCast_mul, ← Int.natCast_div]
    congr 1
  refine ⟨heq, ?_⟩
  rw [heq]
  have : Nat.lcm r.natAbs n.natAbs ≠ 0 := Nat.lcm_ne_zero (by omega) (by omega)
  omega

theorem foldl_lcmStep_eq (t : List Int) : ∀ h : Int, 0 < h → (∀ x ∈ t, 0 < x) →
    t.foldl lcmStep h = ((t.map Int.natAbs).foldl Nat.lcm h.natAbs : Nat) := by
  induction t with
  | nil =>
    intro h hh _
    simp [Int.natAbs_of_nonneg (le_of_lt hh)]
  | cons x t ih =>
    intro h hh hall
    have hx : 0 < x := hall x (List.mem_cons_self x t)
    obtain ⟨heq, hpos⟩ := lcmStep_pos_eq h x hh hx
    simp only [List.foldl_cons, List.map_cons]
    rw [ih (lcmStep h x) hpos fun y hy => hall y (List.mem_cons_of_mem x hy)]
    congr 1
    rw [heq]
    simp

theorem foldl_gcd_int_eq (t : List Int) : ∀ h : Int, 0 ≤ h →
    t.foldl gcd h = ((t.map Int.natAbs).foldl Nat.gcd h.natAbs : Nat) := by
  induction t with
  | nil =>
    intro h hh
    simp [Int.natAbs_of_nonneg hh]
  | cons x t ih =>
    intro h hh
    simp only [List.foldl_cons, List.map_cons]
    rw [ih (gcd h x) (by rw [gcd_eq_natGcd]; exact Int.natCast_nonneg _)]
    congr 1
    rw [gcd_eq_natGcd]
    simp

/-! ## Decoded JSON values -/

/-- A decoded JSON value as seen by the route handler.  JavaScript numbers
that pass `Number.isInteger` are modelled exactly by `vnum`; a number that
is not an integer is abstracted to `vnumNI` (every code path tests
`Number.isInteger` before using a number's value). -/
inductive JsVal where
  | vnum (n : Int) : JsVal
  | vnumNI : JsVal
  | vstr (s : String) : JsVal
  | vbool (b : Bool) : JsVal
  | vnull : JsVal
  | varr (xs : List JsVal) : JsVal
  | vobj (fields : List (String × JsVal)) : JsVal

/-- Check `Number.isInteger(n) && n >= 0` on a decoded value (src/index.js line 167). -/
def isNonNegIntVal : JsVal → Bool
  | .vnum n => decide (0 ≤ n)
  | _ => false

/-- Check `Number.isInteger(n) && n > 0` on a decoded value (src/index.js lines 57, 195, 223). -/
def isPosIntVal : JsVal → Bool
  | .vnum n => decide (0 < n)
  | _ => false

/-- The predicate of the `filterPrimes` filter (src/index.js line 41):
`Number.isInteger(n) && n > 0 && isPrime(n)`. -/
def keepPrime : JsVal → Bool
  | .vnum n => decide (0 < n) && isPrime n
  | _ => false

/-- Source `filterPrimes(arr)` (src/index.js lines 39-42): non-arrays give `[]`. -/
def filterPrimes : JsVal → List JsVal
  | .varr xs => xs.filter keepPrime
  | _ => []

/-- The filter of `lcmOfArray`/`hcfOfArray` (src/index.js lines 57, 68):
keep the elements that are strictly positive integers, as integers. -/
def posIntsOf (xs : List JsVal) : List Int :=
  xs.filterMap fun v =>
    match v with
    | .vnum n => if 0 < n then some n else none
    | _ => none

/-- Source `lcmOfArray(arr)` (src/index.js lines 55-64). -/
def lcmOfArray : JsVal → Int
  | .varr xs =>
    if xs.length = 0 then 0
    else
      match posIntsOf xs with
      | [] => 0
      | h :: t => t.foldl lcmStep h
  | _ => 0

/-- Source `hcfOfArray(arr)` (src/index.js lines 66-75). -/
def hcfOfArray : JsVal → Int
  | .varr xs =>
    if xs.length = 0 then 0
    else
      match posIntsOf xs with
      | [] => 0
      | h :: t => t.foldl gcd h
  | _ => 0

/-- Source `lcmOfArray(arr)` of the variant `src/unnamed/part_000` (lines 60-67):
it folds over the raw array with no positivity filter.  It is embedded on
arrays of integers, the only arrays on which its fold is integer
arithmetic. -/
def lcmOfArrayRaw (arr : List Int) : Int :=
  match arr with
  | [] => 0
  | h :: t => t.foldl lcmStep h

/-- Returns `true` exactly on arrays; used to state the non-array clauses. -/
def isArrVal : JsVal → Bool
  | .varr _ => true
  | _ => false

theorem posIntsOf_map_vnum (xs : List Int) (hpos : ∀ x ∈ xs, 0 < x) :
    posIntsOf (xs.map .vnum) = xs := by
  induction xs with
  | nil => rfl
  | cons x xs ih =>
    have hx : 0 < x := hpos x (List.mem_cons_self x xs)
    simp only [List.map_cons, posIntsOf, List.filterMap_cons]
    rw [if_pos hx]
    have := ih fun y hy => hpos y (List.mem_cons_of_mem x hy)
    simp only [posIntsOf] at this
    rw [this]

/-! ## C6: `filterPrimes` -/

/-- C6: on any array of integers, `filterPrimes` returns an
order-preserving subsequence whose elements are exactly the strictly
positive primes of the input (prime: at least 2 with no positive divisor
other than 1 and itself). -/
theorem filterPrimes_spec (arr : List Int) :
    (filterPrimes (.varr (arr.map .vnum))).Sublist (arr.map .vnum) ∧
    (∀ v ∈ filterPrimes (.varr (arr.map .vnum)), ∃ p : Int, v = .vnum p ∧
      2 ≤ p ∧ (∀ d : Int, 0 < d → d ∣ p → d = 1 ∨ d = p) ∧
      0 < p ∧ Nat.Prime p.toNat) ∧
    (∀ p : Int, p ∈ arr → 0 < p → Nat.Prime p.toNat →
      JsVal.vnum p ∈ filterPrimes (.varr (arr.map .vnum))) ∧
    (∀ p : Int, p ∈ arr → ¬(0 < p ∧ Nat.Prime p.toNat) →
      JsVal.vnum p ∉ filterPrimes (.varr (arr.map .vnum))) := by
  refine ⟨List.filter_sublist _, ?_, ?_, ?_⟩
  · intro v hv
    rw [filterPrimes, List.mem_filter] at hv
    obtain ⟨hvmem, hkeep⟩ := hv
    obtain ⟨p, _, rfl⟩ := List.mem_map.mp hvmem
    rw [keepPrime, Bool.and_eq_true, decide_eq_true_eq] at hkeep
    obtain ⟨hp0, hpp⟩ := hkeep
    have hprime := (isPrime_iff p).mp hpp
    have hppos : 0 < p := hprime.1
    have h2p : 2 ≤ p.toNat := hprime.2.two_le
    refine ⟨p, rfl, by omega, ?_, hprime⟩
    intro d hd hdvd
    have hnat : d.natAbs ∣ p.natAbs := Int.natAbs_dvd_natAbs.mpr hdvd
    have hnat' : d.natAbs ∣ p.toNat := by
      have hpt : p.natAbs = p.toNat := by omega
      rwa [hpt] at hnat
    rcases hprime.2.eq_one_or_self_of_dvd d.natAbs hnat' with hc | hc
    · left; omega
    · right; omega
  · intro p hmem hp0 hpp
    rw [filterPrimes, List.mem_filter]
    refine ⟨List.mem_map.mpr ⟨p, hmem, rfl⟩, ?_⟩
    rw [keepPrime, Bool.and_eq_true, decide_eq_true_eq]
    exact ⟨hp0, (isPrime_iff p).mpr ⟨hp0, hpp⟩⟩
  · intro p hmem hnot hin
    rw [filterPrimes, List.mem_filter] at hin
    obtain ⟨_, hkeep⟩ := hin
    rw [keepPrime, Bool.and_eq_true, decide_eq_true_eq] at hkeep
    exact hnot ⟨hkeep.1, ((isPrime_iff p).mp hkeep.2).2⟩

theorem filterPrimes_spec_witness :
    (filterPrimes (.varr (([1, 2, 4] : List Int).map .vnum))).Sublist (([1, 2, 4] : List Int).map .vnum) ∧
    JsVal.vnum 2 ∈ filterPrimes (.varr (([1, 2, 4] : List Int).map .vnum)) ∧
    JsVal.vnum 4 ∉ filterPrimes (.varr (([1, 2, 4] : List Int).map .vnum)) :=
  ⟨(filterPrimes_spec [1, 2, 4]).1,
    (filterPrimes_spec [1, 2, 4]).2.2.1 2 (by decide) (by decide) (by decide),
    (filterPrimes_spec [1, 2, 4]).2.2.2 4 (by decide) (by decide)⟩

/-! ## C7 and C8: `lcmOfArray` and `hcfOfArray` -/

/-- On a non-empty array of strictly positive integers the exact-integer
value of `lcmOfArray` is the least positive common multiple of the
elements.  (Helper; the double-arithmetic claim is settled further down
against `lcmOfArrayFloat`.) -/
theorem lcmOfArray_exact_props (xs : List Int) (hne : xs ≠ [])
    (hpos : ∀ x ∈ xs, 0 < x) :
    0 < lcmOfArray (.varr (xs.map .vnum)) ∧
    (∀ x ∈ xs, x ∣ lcmOfArray (.varr (xs.map .vnum))) ∧
    (∀ m : Int, 0 < m → (∀ x ∈ xs, x ∣ m) → lcmOfArray (.varr (xs.map .vnum)) ≤ m) := by
  match xs, hne with
  | h :: t, _ =>
    have hh : 0 < h := hpos h (List.mem_cons_self h t)
    have htpos : ∀ x ∈ t, 0 < x := fun y hy => hpos y (List.mem_cons_of_mem h hy)
    have hval : lcmOfArray (.varr ((h :: t).map .vnum)) =
        ((t.map Int.natAbs).foldl Nat.lcm h.natAbs : Nat) := by
      rw [lcmOfArray]
      rw [if_neg (by simp)]
      rw [posIntsOf_map_vnum _ hpos]
      exact foldl_lcmStep_eq t h hh htpos
    obtain ⟨hdinit, hdmem, hmin⟩ := foldl_lcm_spec (t.map Int.natAbs) h.natAbs
    have hposfold : 0 < (t.map Int.natAbs).foldl Nat.lcm h.natAbs := by
      refine foldl_lcm_pos _ _ (by omega) ?_
      intro y hy
      obtain ⟨z, hz, rfl⟩ := List.mem_map.mp hy
      have := htpos z hz
      omega
    refine ⟨by rw [hval]; exact_mod_cast hposfold, ?_, ?_⟩
    · intro x hx
      rw [hval]
      rcases List.mem_cons.mp hx with hx | hx
      · subst hx
        have : (x.natAbs : Int) ∣ (((t.map Int.natAbs).foldl Nat.lcm x.natAbs : Nat) : Int) :=
          Int.natCast_dvd_natCast.mpr hdinit
        have hxeq : (x.natAbs : Int) = x := Int.natAbs_of_nonneg (by omega)
        rwa [hxeq] at this
      · have hx' : x.natAbs ∈ t.map Int.natAbs := List.mem_map.mpr ⟨x, hx, rfl⟩
        have : (x.natAbs : Int) ∣ (((t.map Int.natAbs).foldl Nat.lcm h.natAbs : Nat) : Int) :=
          Int.natCast_dvd_natCast.mpr (hdmem x.natAbs hx')
        have hxeq : (x.natAbs : Int) = x := Int.natAbs_of_nonneg (le_of_lt (htpos x hx))
        rwa [hxeq] at this
    · intro m hm hall
      rw [hval]
      have hdvdm : (t.map Int.natAbs).foldl Nat.lcm h.natAbs ∣ m.natAbs := by
        refine hmin m.natAbs ?_ ?_
        · have := hall h (List.mem_cons_self h t)
          exact Int.natAbs_dvd_natAbs.mpr this
        · intro y hy
          obtain ⟨z, hz, rfl⟩ := List.mem_map.mp hy
          exact Int.natAbs_dvd_natAbs.mpr (hall z (List.mem_cons_of_mem h hz))
      have hle : (t.map Int.natAbs).foldl Nat.lcm h.natAbs ≤ m.natAbs :=
        Nat.le_of_dvd (by omega) hdvdm
      omega

/-- C8: on a non-empty array of strictly positive integers `hcfOfArray`
(a left fold of pairwise `gcd`) divides every element; an empty array or a
non-array input gives 0. -/
theorem hcfOfArray_spec :
    (∀ xs : List Int, xs ≠ [] → (∀ x ∈ xs, 0 < x) →
      ∀ x ∈ xs, hcfOfArray (.varr (xs.map .vnum)) ∣ x) ∧
    hcfOfArray (.varr []) = 0 ∧
    (∀ v : JsVal, isArrVal v = false → hcfOfArray v = 0) := by
  refine ⟨?_, rfl, ?_⟩
  · intro xs hne hpos
    match xs, hne with
    | h :: t, _ =>
      have hh : 0 < h := hpos h (List.mem_cons_self h t)
      have htpos : ∀ x ∈ t, 0 < x := fun y hy => hpos y (List.mem_cons_of_mem h hy)
      have hval : hcfOfArray (.varr ((h :: t).map .vnum)) =
          ((t.map Int.natAbs).foldl Nat.gcd h.natAbs : Nat) := by
        rw [hcfOfArray]
        rw [if_neg (by simp)]
        rw [posIntsOf_map_vnum _ hpos]
        exact foldl_gcd_int_eq t h (by omega)
      obtain ⟨hdinit, hdmem⟩ := foldl_gcd_spec (t.map Int.natAbs) h.natAbs
      intro x hx
      rw [hval]
      rcases List.mem_cons.mp hx with hx | hx
      · subst hx
        have : (((t.map Int.natAbs).foldl Nat.gcd x.natAbs : Nat) : Int) ∣ (x.natAbs : Int) :=
          Int.natCast_dvd_natCast.mpr hdinit
        have hxeq : (x.natAbs : Int) = x := Int.natAbs_of_nonneg (by omega)
        rwa [hxeq] at this
      · have hx' : x.natAbs ∈ t.map Int.natAbs := List.mem_map.mpr ⟨x, hx, rfl⟩
        have : (((t.map Int.natAbs).foldl Nat.gcd h.natAbs : Nat) : Int) ∣ (x.natAbs : Int) :=
          Int.natCast_dvd_natCast.mpr (hdmem x.natAbs hx')
        have hxeq : (x.natAbs : Int) = x := Int.natAbs_of_nonneg (le_of_lt (htpos x hx))
        rwa [hxeq] at this
  · intro v hv
    match v, hv with
    | .vnum _, _ => rfl
    | .vnumNI, _ => rfl
    | .vstr _, _ => rfl
    | .vbool _, _ => rfl
    | .vnull, _ => rfl
    | .vobj _, _ => rfl

theorem hcfOfArray_spec_witness :
    ([3] : List Int) ≠ [] ∧ (∀ x ∈ ([3] : List Int), 0 < x) ∧
    hcfOfArray (.varr (([3] : List Int).map .vnum)) ∣ 3 :=
  ⟨by decide, by decide, hcfOfArray_spec.1 [3] (by decide) (by decide) 3 (by decide)⟩

/-! ## C9: `gcd` -/

/-- C9: `gcd` is symmetric, `gcd(a, 0) = |a|`, and `gcd` computes the
Euclidean algorithm (`Nat.gcd`) on the absolute values of its arguments. -/
theorem gcd_spec (a b : Int) :
    gcd a b = gcd b a ∧ gcd a 0 = |a| ∧
    gcd a b = (Nat.gcd a.natAbs b.natAbs : Int) := by
  refine ⟨?_, ?_, gcd_eq_natGcd a b⟩
  · rw [gcd_eq_natGcd, gcd_eq_natGcd, Nat.gcd_comm]
  · rw [gcd_eq_natGcd]
    have h0 : (0 : Int).natAbs = 0 := rfl
    rw [h0, Nat.gcd_zero_right, Int.abs_eq_natAbs]

/-! ## C10: the two `lcmOfArray` variants agree on positive arrays -/

/-- C10: on every non-empty array of strictly positive integers, the
filtering variant of `lcmOfArray` (src/index.js) and the raw-fold variant
(src/unnamed/part_000) return the same value. -/
theorem lcm_variants_agree (xs : List Int) (hne : xs ≠ [])
    (hpos : ∀ x ∈ xs, 0 < x) :
    lcmOfArray (.varr (xs.map .vnum)) = lcmOfArrayRaw xs := by
  match xs, hne with
  | h :: t, _ =>
    rw [lcmOfArray, if_neg (by simp), posIntsOf_map_vnum _ hpos]
    rfl

theorem lcm_variants_agree_witness :
    ([5] : List Int) ≠ [] ∧ (∀ x ∈ ([5] : List Int), 0 < x) ∧
    lcmOfArray (.varr (([5] : List Int).map .vnum)) = lcmOfArrayRaw [5] :=
  ⟨by decide, by decide, lcm_variants_agree [5] (by decide) (by decide)⟩

/-! ## The AI bridge (src/index.js lines 11-15 and 77-91)

The external text-generation call is abstracted as a function from the
final prompt to either a thrown error (`Except.error` with the provider's
message), a response with no text (`Except.ok none`), or a response with
text (`Except.ok (some t)`).  `hasKey` records whether `GEMINI_API_KEY`
was configured at process start (src/index.js lines 12-15). -/

structure AIEnv where
  hasKey : Bool
  provider : String → Except String (Option String)

/-- String.prototype.trim: drop whitespace from both ends
(modelled on the character list so that it is kernel-computable). -/
def jsTrim (s : String) : String :=
  (((s.toList.dropWhile Char.isWhitespace).reverse.dropWhile Char.isWhitespace).reverse).asString

/-- String.prototype.toLowerCase. -/
def jsToLower (s : String) : String :=
  (s.toList.map Char.toLower).asString

/-- Computation `text.split(/\s+/)[0]` on trimmed non-empty text: the first
whitespace-delimited token (src/index.js line 85). -/
def firstToken (s : String) : String :=
  (s.toList.takeWhile (fun c => !c.isWhitespace)).asString

/-- The instruction appended to every prompt (src/index.js line 82). -/
def aiInstruction : String :=
  "\n\nRespond with only a single word answer. No explanation, no punctuation."

/-- Source `getAIResponse(question)` (src/index.js lines 77-91): `none` models the
returned `null`. -/
def getAIResponse (env : AIEnv) (question : String) : Option String :=
  if env.hasKey = false ∨ question = "" then none
  else
    match env.provider (question ++ aiInstruction) with
    | .error _ => none
    | .ok none => none
    | .ok (some t) =>
      if jsTrim t = "" then none else some (firstToken (jsTrim t))

/-! ## The `POST /bfhl` handler (src/index.js lines 118-291) -/

/-- The JSON envelope sent by the handler, together with the HTTP status. -/
structure Response where
  status : Nat
  is_success : Bool
  official_email : String
  data : Option JsVal
  error : Option String

/-- An error envelope: `{ is_success: false, official_email, error }`. -/
def errResp (email : String) (st : Nat) (msg : String) : Response :=
  ⟨st, false, email, none, some msg⟩

/-- The success envelope: `{ is_success: true, official_email, data }`
with HTTP 200 (src/index.js lines 278-282). -/
def okResp (email : String) (d : JsVal) : Response :=
  ⟨200, true, email, some d, none⟩

def invalidBodyMsg : String := "Invalid request body"

def exactlyOneMsg : String :=
  "Request must contain exactly one of: fibonacci, prime, lcm, hcf, AI"

def fibInvalidMsg : String := "fibonacci must be a non-negative integer (0-1000)"

def primeNotArrayMsg : String := "prime must be an array of integers"

def primeElemsMsg : String := "prime array must contain only integers"

def primeTooLargeMsg : String := "prime array too large"

def lcmNotArrayMsg : String := "lcm must be an array of integers"

def lcmElemsMsg : String := "lcm array must contain only positive integers"

def lcmTooLargeMsg : String := "lcm array too large"

def hcfNotArrayMsg : String := "hcf must be an array of integers"

def hcfElemsMsg : String := "hcf array must contain only positive integers"

def hcfTooLargeMsg : String := "hcf array too large"

def aiQuestionMsg : String := "AI must receive a non-empty string question"

def aiTooLongMsg : String := "Question too long"

def aiUnavailableMsg : String :=
  "AI service unavailable. Set GEMINI_API_KEY environment variable."

def invalidKeyMsg : String := "Invalid key"

/-- The `'fibonacci'` case (src/index.js lines 145-156): `body[key]` must be an
integer number in `[0, 1000]`. -/
def fibCase (email : String) (val : Option JsVal) : Response :=
  match val with
  | some (.vnum n) =>
    if n < 0 ∨ 1000 < n then errResp email 400 fibInvalidMsg
    else okResp email (.varr ((fibonacci n).map .vnum))
  | _ => errResp email 400 fibInvalidMsg

/-- The `'prime'` case (src/index.js lines 158-184). -/
def primeCase (email : String) (val : Option JsVal) : Response :=
  match val with
  | some (.varr xs) =>
    if (xs.filter isNonNegIntVal).length ≠ xs.length then errResp email 400 primeElemsMsg
    else if 100 < xs.length then errResp email 400 primeTooLargeMsg
    else okResp email (.varr (filterPrimes (.varr xs)))
  | _ => errResp email 400 primeNotArrayMsg

/-- The `'lcm'` case (src/index.js lines 186-212). -/
def lcmCase (email : String) (val : Option JsVal) : Response :=
  match val with
  | some (.varr xs) =>
    if (xs.filter isPosIntVal).length ≠ xs.length then errResp email 400 lcmElemsMsg
    else if 20 < xs.length then errResp email 400 lcmTooLargeMsg
    else okResp email (.vnum (lcmOfArray (.varr xs)))
  | _ => errResp email 400 lcmNotArrayMsg

/-- The `'hcf'` case (src/index.js lines 214-240). -/
def hcfCase (email : String) (val : Option JsVal) : Response :=
  match val with
  | some (.varr xs) =>
    if (xs.filter isPosIntVal).length ≠ xs.length then errResp email 400 hcfElemsMsg
    else if 20 < xs.length then errResp email 400 hcfTooLargeMsg
    else okResp email (.vnum (hcfOfArray (.varr xs)))
  | _ => errResp email 400 hcfNotArrayMsg

/-- The `'AI'` case (src/index.js lines 242-268): `q` is `body[key] ?? body.ai`. -/
def aiCase (email : String) (env : AIEnv) (q : Option JsVal) : Response :=
  match q with
  | some (.vstr s) =>
    if (jsTrim s).length = 0 then errResp email 400 aiQuestionMsg
    else if 500 < s.length then errResp email 400 aiTooLongMsg
    else
      match getAIResponse env (jsTrim s) with
      | none => errResp email 503 aiUnavailableMsg
      | some a => okResp email (.vstr a)
  | _ => errResp email 400 aiQuestionMsg

/-- Check `!body || typeof body !== 'object'` (src/index.js line 121): only
objects and arrays pass (`typeof null` is `'object'` but `null` is falsy). -/
def isObjectLike : JsVal → Bool
  | .varr _ => true
  | .vobj _ => true
  | _ => false

/-- Property access `body[k]`: `none` models `undefined`. -/
def jsGet : JsVal → String → Option JsVal
  | .vobj fields, k => (fields.find? (fun p => p.fst = k)).map Prod.snd
  | _, _ => none

/-- Source `Object.keys(body)` (src/index.js line 129): field names of an object,
index strings of an array. -/
def jsKeys : JsVal → List String
  | .vobj fields => fields.map Prod.fst
  | .varr xs => (List.range xs.length).map (fun i => toString i)
  | _ => []

/-- The `??` operator of `body[key] ?? body.ai` (src/index.js line 243):
take the right operand when the left is `undefined` or `null`. -/
def jsCoalesce : Option JsVal → Option JsVal → Option JsVal
  | none, b => b
  | some .vnull, b => b
  | some v, _ => some v

/-- Source `validKeys` (src/index.js line 130). -/
def validKeys : List String := ["fibonacci", "prime", "lcm", "hcf", "AI", "ai"]

/-- The `switch (key)` statement (src/index.js lines 144-276), applied to
the normalized key. -/
def handlerDispatch (email : String) (env : AIEnv) (body : JsVal) (key : String) : Response :=
  if key = "fibonacci" then fibCase email (jsGet body key)
  else if key = "prime" then primeCase email (jsGet body key)
  else if key = "lcm" then lcmCase email (jsGet body key)
  else if key = "hcf" then hcfCase email (jsGet body key)
  else if key = "AI" then aiCase email env (jsCoalesce (jsGet body key) (jsGet body "ai"))
  else errResp email 400 invalidKeyMsg

/-- The `POST /bfhl` handler (src/index.js lines 118-291) as a function of
the configured email, the AI environment and the decoded request body.
`keys.find(...)` is the `providedKey` lookup of line 132, and
`if jsToLower pk = "ai" then "AI" else pk` is the key normalization of
line 141. -/
def handler (email : String) (env : AIEnv) (body : JsVal) : Response :=
  if isObjectLike body = false then errResp email 400 invalidBodyMsg
  else
    match (jsKeys body).find? (fun k => validKeys.contains k) with
    | none => errResp email 400 exactlyOneMsg
    | some pk =>
      if 1 < (jsKeys body).length then errResp email 400 exactlyOneMsg
      else handlerDispatch email env body (if jsToLower pk = "ai" then "AI" else pk)

/-! ## Evaluation of the handler on single-key objects -/

theorem handler_fib (email : String) (env : AIEnv) (v : JsVal) :
    handler email env (.vobj [("fibonacci", v)]) = fibCase email (some v) := rfl

theorem handler_prime (email : String) (env : AIEnv) (v : JsVal) :
    handler email env (.vobj [("prime", v)]) = primeCase email (some v) := rfl

theorem handler_lcm (email : String) (env : AIEnv) (v : JsVal) :
    handler email env (.vobj [("lcm", v)]) = lcmCase email (some v) := rfl

theorem handler_hcf (email : String) (env : AIEnv) (v : JsVal) :
    handler email env (.vobj [("hcf", v)]) = hcfCase email (some v) := rfl

theorem handler_AI (email : String) (env : AIEnv) (v : JsVal) :
    handler email env (.vobj [("AI", v)]) = aiCase email env (jsCoalesce (some v) none) := rfl

theorem handler_ai_lower (email : String) (env : AIEnv) (v : JsVal) :
    handler email env (.vobj [("ai", v)]) = aiCase email env (some v) := rfl

/-! ## C4: every response is a consistent envelope -/

theorem fibCase_shape (email : String) (val : Option JsVal) :
    (∃ st m, fibCase email val = errResp email st m) ∨
    (∃ d, fibCase email val = okResp email d) := by
  rcases val with _ | v
  · exact Or.inl ⟨_, _, rfl⟩
  · cases v
    case vnum n =>
      rw [fibCase]
      by_cases h : n < 0 ∨ 1000 < n
      · rw [if_pos h]; exact Or.inl ⟨_, _, rfl⟩
      · rw [if_neg h]; exact Or.inr ⟨_, rfl⟩
    all_goals exact Or.inl ⟨_, _, rfl⟩

theorem primeCase_shape (email : String) (val : Option JsVal) :
    (∃ st m, primeCase email val = errResp email st m) ∨
    (∃ d, primeCase email val = okResp email d) := by
  rcases val with _ | v
  · exact Or.inl ⟨_, _, rfl⟩
  · cases v
    case varr xs =>
      rw [primeCase]
      by_cases h1 : (xs.filter isNonNegIntVal).length ≠ xs.length
      · rw [if_pos h1]; exact Or.inl ⟨_, _, rfl⟩
      · rw [if_neg h1]
        by_cases h2 : 100 < xs.length
        · rw [if_pos h2]; exact Or.inl ⟨_, _, rfl⟩
        · rw [if_neg h2]; exact Or.inr ⟨_, rfl⟩
    all_goals exact Or.inl ⟨_, _, rfl⟩

theorem lcmCase_shape (email : String) (val : Option JsVal) :
    (∃ st m, lcmCase email val = errResp email st m) ∨
    (∃ d, lcmCase email val = okResp email d) := by
  rcases val with _ | v
  · exact Or.inl ⟨_, _, rfl⟩
  · cases v
    case varr xs =>
      rw [lcmCase]
      by_cases h1 : (xs.filter isPosIntVal).length ≠ xs.length
      · rw [if_pos h1]; exact Or.inl ⟨_, _, rfl⟩
      · rw [if_neg h1]
        by_cases h2 : 20 < xs.length
        · rw [if_pos h2]; exact Or.inl ⟨_, _, rfl⟩
        · rw [if_neg h2]; exact Or.inr ⟨_, rfl⟩
    all_goals exact Or.inl ⟨_, _, rfl⟩

theorem hcfCase_shape (email : String) (val : Option JsVal) :
    (∃ st m, hcfCase email val = errResp email st m) ∨
    (∃ d, hcfCase email val = okResp email d) := by
  rcases val with _ | v
  · exact Or.inl ⟨_, _, rfl⟩
  · cases v
    case varr xs =>
      rw [hcfCase]
      by_cases h1 : (xs.filter isPosIntVal).length ≠ xs.length
      · rw [if_pos h1]; exact Or.inl ⟨_, _, rfl⟩
      · rw [if_neg h1]
        by_cases h2 : 20 < xs.length
        · rw [if_pos h2]; exact Or.inl ⟨_, _, rfl⟩
        · rw [if_neg h2]; exact Or.inr ⟨_, rfl⟩
    all_goals exact Or.inl ⟨_, _, rfl⟩

theorem aiCase_shape (email : String) (env : AIEnv) (q : Option JsVal) :
    (∃ st m, aiCase email env q = errResp email st m) ∨
    (∃ d, aiCase email env q = okResp email d) := by
  rcases q with _ | v
  · exact Or.inl ⟨_, _, rfl⟩
  · cases v
    case vstr s =>
      rw [aiCase]
      by_cases h1 : (jsTrim s).length = 0
      · rw [if_pos h1]; exact Or.inl ⟨_, _, rfl⟩
      · rw [if_neg h1]
        by_cases h2 : 500 < s.length
        · rw [if_pos h2]; exact Or.inl ⟨_, _, rfl⟩
        · rw [if_neg h2]
          rcases hair : getAIResponse env (jsTrim s) with _ | a
          · exact Or.inl ⟨_, _, rfl⟩
          · exact Or.inr ⟨_, rfl⟩
    all_goals exact Or.inl ⟨_, _, rfl⟩

theorem handler_shape (email : String) (env : AIEnv) (body : JsVal) :
    (∃ st m, handler email env body = errResp email st m) ∨
    (∃ d, handler email env body = okResp email d) := by
  unfold handler handlerDispatch
  repeat' split
  all_goals first
    | exact Or.inl ⟨_, _, rfl⟩
    | exact fibCase_shape email _
    | exact primeCase_shape email _
    | exact lcmCase_shape email _
    | exact hcfCase_shape email _
    | exact aiCase_shape email env _

/-- C4: every response of the `POST /bfhl` handler carries `is_success`
and the configured `official_email`, exactly one of `data`/`error` is
present, and `data` is present exactly when `is_success` is true (`error`
exactly when it is false; `error`, when present, is a string by the type
of the envelope). -/
theorem envelope_invariant (email : String) (env : AIEnv) (body : JsVal) :
    ((handler email env body).data.isSome ↔ (handler email env body).is_success = true) ∧
    ((handler email env body).error.isSome ↔ (handler email env body).is_success = false) ∧
    ¬((handler email env body).data.isSome ∧ (handler email env body).error.isSome) ∧
    (handler email env body).official_email = email := by
  rcases handler_shape email env body with ⟨st, m, h⟩ | ⟨d, h⟩ <;>
    rw [h] <;> simp [errResp, okResp]

/-! ## C3: exactly one recognized key -/

theorem errResp_error_ne (email : String) (st : Nat) (m m' : String) (hne : m ≠ m') :
    (errResp email st m).error ≠ some m' := fun h => hne (Option.some.inj h)

theorem okResp_error_ne (email : String) (d : JsVal) (m' : String) :
    (okResp email d).error ≠ some m' := fun h => Option.noConfusion h

theorem fibCase_error_ne (email : String) (val : Option JsVal) :
    (fibCase email val).error ≠ some exactlyOneMsg := by
  rcases val with _ | v
  · exact errResp_error_ne email 400 _ _ (by decide)
  · cases v
    case vnum n =>
      rw [fibCase]
      split
      · exact errResp_error_ne email 400 _ _ (by decide)
      · exact okResp_error_ne email _ _
    all_goals exact errResp_error_ne email 400 _ _ (by decide)

theorem primeCase_error_ne (email : String) (val : Option JsVal) :
    (primeCase email val).error ≠ some exactlyOneMsg := by
  rcases val with _ | v
  · exact errResp_error_ne email 400 _ _ (by decide)
  · cases v
    case varr xs =>
      rw [primeCase]
      split
      · exact errResp_error_ne email 400 _ _ (by decide)
      · split
        · exact errResp_error_ne email 400 _ _ (by decide)
        · exact okResp_error_ne email _ _
    all_goals exact errResp_error_ne email 400 _ _ (by decide)

theorem lcmCase_error_ne (email : String) (val : Option JsVal) :
    (lcmCase email val).error ≠ some exactlyOneMsg := by
  rcases val with _ | v
  · exact errResp_error_ne email 400 _ _ (by decide)
  · cases v
    case varr xs =>
      rw [lcmCase]
      split
      · exact errResp_error_ne email 400 _ _ (by decide)
      · split
        · exact errResp_error_ne email 400 _ _ (by decide)
        · exact okResp_error_ne email _ _
    all_goals exact errResp_error_ne email 400 _ _ (by decide)

theorem hcfCase_error_ne (email : String) (val : Option JsVal) :
    (hcfCase email val).error ≠ some exactlyOneMsg := by
  rcases val with _ | v
  · exact errResp_error_ne email 400 _ _ (by decide)
  · cases v
    case varr xs =>
      rw [hcfCase]
      split
      · exact errResp_error_ne email 400 _ _ (by decide)
      · split
        · exact errResp_error_ne email 400 _ _ (by decide)
        · exact okResp_error_ne email _ _
    all_goals exact errResp_error_ne email 400 _ _ (by decide)

theorem aiCase_error_ne (email : String) (env : AIEnv) (q : Option JsVal) :
    (aiCase email env q).error ≠ some exactlyOneMsg := by
  rcases q with _ | v
  · exact errResp_error_ne email 400 _ _ (by decide)
  · cases v
    case vstr s =>
      rw [aiCase]
      split
      · exact errResp_error_ne email 400 _ _ (by decide)
      · split
        · exact errResp_error_ne email 400 _ _ (by decide)
        · split
          · exact errResp_error_ne email 503 _ _ (by decide)
          · exact okResp_error_ne email _ _
    all_goals exact errResp_error_ne email 400 _ _ (by decide)

theorem key_error_ne (email : String) (env : AIEnv) (k : String) (v : JsVal)
    (hk : k ∈ validKeys) :
    (handler email env (.vobj [(k, v)])).error ≠ some exactlyOneMsg := by
  rw [validKeys] at hk
  fin_cases hk
  · rw [handler_fib]; exact fibCase_error_ne email _
  · rw [handler_prime]; exact primeCase_error_ne email _
  · rw [handler_lcm]; exact lcmCase_error_ne email _
  · rw [handler_hcf]; exact hcfCase_error_ne email _
  · rw [handler_AI]; exact aiCase_error_ne email env _
  · rw [handler_ai_lower]; exact aiCase_error_ne email env _

theorem handler_not_single_recognized (email : String) (env : AIEnv)
    (fields : List (String × JsVal))
    (hex : ¬ ∃ k v, fields = [(k, v)] ∧ k ∈ validKeys) :
    handler email env (.vobj fields) = errResp email 400 exactlyOneMsg := by
  match fields with
  | [] => rfl
  | [(k, v)] =>
    have hk : k ∉ validKeys := fun hmem => hex ⟨k, v, rfl, hmem⟩
    have hfind : List.find? (fun k' => validKeys.contains k') [k] = none := by
      rw [List.find?_eq_none]
      intro x hx
      simp at hx
      subst hx
      simpa using hk
    unfold handler
    rw [if_neg (by simp [isObjectLike])]
    have hkeys : jsKeys (.vobj [(k, v)]) = [k] := rfl
    rw [hkeys, hfind]
  | (k1, v1) :: (k2, v2) :: rest =>
    unfold handler
    rw [if_neg (by simp [isObjectLike])]
    split
    · rfl
    · rw [if_pos (by simp [jsKeys])]

/-- C3: a decoded object body is accepted for dispatch (it does not draw
the single-key 400 error) exactly when it has exactly one top-level key
and that key is one of `fibonacci`, `prime`, `lcm`, `hcf`, `AI`, `ai`;
otherwise the handler answers HTTP 400 with `is_success` false. -/
theorem single_key_dispatch (email : String) (env : AIEnv)
    (fields : List (String × JsVal)) :
    ((handler email env (.vobj fields)).error = some exactlyOneMsg ↔
      ¬ ∃ k v, fields = [(k, v)] ∧ k ∈ validKeys) ∧
    ((handler email env (.vobj fields)).error = some exactlyOneMsg →
      (handler email env (.vobj fields)).status = 400 ∧
      (handler email env (.vobj fields)).is_success = false) := by
  by_cases hex : ∃ k v, fields = [(k, v)] ∧ k ∈ validKeys
  · obtain ⟨k, v, rfl, hk⟩ := hex
    have hne := key_error_ne email env k v hk
    exact ⟨⟨fun h => absurd h hne, fun h => absurd ⟨k, v, rfl, hk⟩ h⟩,
      fun h => absurd h hne⟩
  · have heq := handler_not_single_recognized email env fields hex
    rw [heq]
    exact ⟨⟨fun _ => hex, fun _ => rfl⟩, fun _ => ⟨rfl, rfl⟩⟩

/-! ## C1: valid single-key requests -/

theorem length_ne_zero_of_ne_empty (s : String) (h : s ≠ "") : ¬ s.length = 0 := by
  intro h0
  exact h (String.ext (List.length_eq_zero.mp h0))

theorem getAIResponse_none (env : AIEnv) (q : String)
    (hdown : env.hasKey = false ∨
      (∃ e, env.provider (q ++ aiInstruction) = .error e) ∨
      env.provider (q ++ aiInstruction) = .ok none ∨
      (∃ t, env.provider (q ++ aiInstruction) = .ok (some t) ∧ jsTrim t = "")) :
    getAIResponse env q = none := by
  rw [getAIResponse]
  by_cases hq : env.hasKey = false ∨ q = ""
  · rw [if_pos hq]
  · rw [if_neg hq]
    rcases hdown with h | ⟨e, h⟩ | h | ⟨t, h, ht⟩
    · exact absurd (Or.inl h) hq
    · rw [h]
    · rw [h]
    · rw [h]
      simp [ht]

/-- C2: when no AI credential is configured, every request selecting the
AI operation with a valid question is answered HTTP 503 with
`is_success: false`; more generally a missing credential, a provider
error, a provider response with no text, or a whitespace-only provider
response all produce the same fixed 503 envelope, whose error string does
not depend on the provider's error detail. -/
theorem ai_unavailable_503 (email : String) (env : AIEnv) (k : String) (s : String)
    (hk : k = "AI" ∨ k = "ai")
    (hs : jsTrim s ≠ "") (hlen : s.length ≤ 500)
    (hdown : env.hasKey = false ∨
      (∃ e, env.provider (jsTrim s ++ aiInstruction) = .error e) ∨
      env.provider (jsTrim s ++ aiInstruction) = .ok none ∨
      (∃ t, env.provider (jsTrim s ++ aiInstruction) = .ok (some t) ∧ jsTrim t = "")) :
    handler email env (.vobj [(k, .vstr s)]) = errResp email 503 aiUnavailableMsg := by
  have hnone := getAIResponse_none env (jsTrim s) hdown
  have haic : aiCase email env (some (.vstr s)) = errResp email 503 aiUnavailableMsg := by
    rw [aiCase, if_neg (length_ne_zero_of_ne_empty _ hs), if_neg (by omega), hnone]
  rcases hk with rfl | rfl
  · rw [handler_AI]
    exact haic
  · rw [handler_ai_lower]
    exact haic

theorem ai_unavailable_503_witness :
    ("AI" = "AI" ∨ "AI" = "ai") ∧ jsTrim "hi" ≠ "" ∧ ("hi" : String).length ≤ 500 ∧
    handler "a@b.c" ⟨false, fun _ => .error "socket hang up"⟩ (.vobj [("AI", .vstr "hi")]) =
      errResp "a@b.c" 503 aiUnavailableMsg :=
  ⟨Or.inl rfl, by decide, by decide,
    ai_unavailable_503 "a@b.c" ⟨false, fun _ => .error "socket hang up"⟩ "AI" "hi"
      (Or.inl rfl) (by decide) (by decide) (Or.inl rfl)⟩

/-! ## Binary64 rounding of integer-valued doubles

JavaScript numbers are IEEE-754 binary64 doubles.  On the code paths
verified below every stored value is an integer-valued double, and each
`+` and `*` produces the binary64 rounding (round to nearest, ties to
even) of the exact integer result, which is again an integer.  `flNat`
computes that rounding for a non-negative integer: with `u = 2 ^ k` the
unit in the last place of the binade `2 ^ (52 + k) ≤ x < 2 ^ (53 + k)`,
round `x` to the nearest multiple of `u`, ties to the even multiple; an
integer below `2 ^ 53` is returned unchanged. -/

/-- The unit in the last place of the binade of `x` (1 for `x < 2 ^ 53`).
The first argument is fuel for the structural recursion; `fuel = x`
always suffices since the recursion halves `x`. -/
def flUnit : Nat → Nat → Nat
  | 0, _ => 1
  | fuel + 1, x => if x < 2 ^ 53 then 1 else 2 * flUnit fuel (x / 2)

/-- Round a non-negative integer to binary64: nearest multiple of the
unit in the last place, ties to even. -/
def flNat (x : Nat) : Nat :=
  let u := flUnit x x
  let q := x / u
  let r := x % u
  if r * 2 < u then q * u
  else if u < r * 2 then (q + 1) * u
  else (if q % 2 = 0 then q else q + 1) * u

/-- Binary64 rounding of an integer-valued result, extended to negative
integers by sign symmetry (IEEE-754 rounding is symmetric). -/
def flInt (x : Int) : Int :=
  if x < 0 then -((flNat x.natAbs : Nat) : Int) else ((flNat x.natAbs : Nat) : Int)

theorem flNat_small (x : Nat) (h : x < 2 ^ 53) : flNat x = x := by
  have hu : flUnit x x = 1 := by
    cases x with
    | zero => rfl
    | succ m => rw [flUnit, if_pos h]
  rw [flNat]
  simp only [hu]
  simp
  intro h0
  simp [Nat.mod_one] at h0

theorem flInt_small (x : Int) (h0 : 0 ≤ x) (h1 : x < 2 ^ 53) : flInt x = x := by
  rw [flInt, if_neg (by omega)]
  have h53 : ((2 ^ 53 : Nat) : Int) = 2 ^ 53 := by norm_num
  have hna : x.natAbs < 2 ^ 53 := by omega
  rw [flNat_small _ hna]
  omega

/-! ## C5: `fibonacci` under faithful double arithmetic -/

/-- The `fibonacci` loop (src/index.js lines 23-25) with JavaScript
double semantics: each pushed element is the binary64 rounding of the
exact sum of the previous two stored values. -/
def fibGoFloat : Nat → List Int → List Int
  | 0, s => s
  | k + 1, s => fibGoFloat k (s ++ [flInt (s.getD (s.length - 1) 0 + s.getD (s.length - 2) 0)])

/-- Source `fibonacci(n)` (src/index.js lines 19-27) with faithful
JavaScript double arithmetic.  For `n ≤ 1000` every value stays below
`2 ^ 694`, far under the overflow threshold `2 ^ 1024`, so every stored
double is an integer and `flInt` of each exact sum is its precise
IEEE-754 value. -/
def fibonacciFloat (n : Int) : List Int :=
  if n ≤ 0 then []
  else if n = 1 then [0]
  else fibGoFloat (n.toNat - 2) [0, 1]

theorem fibGoFloat_length (k : Nat) (s : List Int) :
    (fibGoFloat k s).length = s.length + k := by
  induction k generalizing s with
  | zero => simp [fibGoFloat]
  | succ k ih => rw [fibGoFloat, ih]; simp; omega

theorem fibGoFloat_add (a b : Nat) (s : List Int) :
    fibGoFloat (a + b) s = fibGoFloat b (fibGoFloat a s) := by
  induction a generalizing s with
  | zero => rw [Nat.zero_add]; rfl
  | succ a ih =>
    rw [show a + 1 + b = (a + b) + 1 from by omega]
    rw [fibGoFloat, fibGoFloat]
    exact ih _

theorem fibGoFloat_getD_stable (k : Nat) (s : List Int) (j : Nat) (hj : j < s.length) :
    (fibGoFloat k s).getD j 0 = s.getD j 0 := by
  induction k generalizing s with
  | zero => rfl
  | succ k ih =>
    rw [fibGoFloat, ih _ (by simp; omega)]
    exact getD_append_lt _ _ _ hj

/-- Up to 77 loop iterations (all values below `2 ^ 53`) the rounded and
the exact loop coincide. -/
theorem fibGoFloat_exact_bridge : ∀ j : Nat, j < 78 → fibGoFloat j [0, 1] = fibGo j [0, 1] := by
  decide

/-- C5 (amended): `fibonacci(n)`, with its additions performed in
JavaScript double arithmetic as in the source (faithfully modelled by
`fibonacciFloat`), returns for every `0 ≤ n ≤ 1000` a sequence of length
exactly `n` whose first element is 0 when `n ≥ 1` and whose second
element is 1 when `n ≥ 2`; the exact recurrence `f[i] = f[i-1] + f[i-2]`
holds for every `2 ≤ i < n` with `i ≤ 78` — the whole range in which the
values stay below `2 ^ 53` and double addition is exact, so in
particular the entire sequence is exact whenever `n ≤ 79` — and
`fibonacci(0)` is empty while `fibonacci(1) = [0]`.  From `i = 79` on
the sums are rounded and the exact recurrence can fail (see
`fibonacci_float_recurrence_fails_at_80`). -/
theorem fibonacciFloat_spec (n : Int) (h0 : 0 ≤ n) (h1 : n ≤ 1000) :
    (fibonacciFloat n).length = n.toNat ∧
    (1 ≤ n → (fibonacciFloat n).getD 0 0 = 0) ∧
    (2 ≤ n → (fibonacciFloat n).getD 1 0 = 1) ∧
    (∀ i : Nat, 2 ≤ i → i < n.toNat → i ≤ 78 →
      (fibonacciFloat n).getD i 0 =
        (fibonacciFloat n).getD (i - 1) 0 + (fibonacciFloat n).getD (i - 2) 0) ∧
    fibonacciFloat 0 = [] ∧ fibonacciFloat 1 = [0] := by
  have hbase0 : fibonacciFloat 0 = [] := by rw [fibonacciFloat]; simp
  have hbase1 : fibonacciFloat 1 = [0] := by rw [fibonacciFloat]; simp
  rcases lt_or_ge n 2 with hn | hn
  · rcases lt_or_ge n 1 with hn0 | hn0
    · have : n = 0 := by omega
      subst this
      refine ⟨by rw [hbase0]; rfl, by omega, by omega, ?_, hbase0, hbase1⟩
      intro i h2 hlt
      simp at hlt
    · have : n = 1 := by omega
      subst this
      refine ⟨by rw [hbase1]; rfl, fun _ => by rw [hbase1]; rfl, by omega, ?_, hbase0, hbase1⟩
      intro i h2 hlt
      simp at hlt
      omega
  · have hunf : fibonacciFloat n = fibGoFloat (n.toNat - 2) [0, 1] := by
      rw [fibonacciFloat, if_neg (by omega), if_neg (by omega)]
    rw [hunf]
    refine ⟨?_, ?_, ?_, ?_, hbase0, hbase1⟩
    · rw [fibGoFloat_length]; simp; omega
    · intro _
      rw [fibGoFloat_getD_stable _ _ _ (by simp)]
      rfl
    · intro _
      rw [fibGoFloat_getD_stable _ _ _ (by simp)]
      rfl
    · intro i hi2 hin hi78
      have hsplit : n.toNat - 2 = (i - 1) + (n.toNat - 2 - (i - 1)) := by omega
      rw [hsplit, fibGoFloat_add]
      have hlen : (fibGoFloat (i - 1) [0, 1]).length = i + 1 := by
        rw [fibGoFloat_length]; simp; omega
      rw [fibGoFloat_getD_stable _ _ i (by rw [hlen]; omega),
        fibGoFloat_getD_stable _ _ (i - 1) (by rw [hlen]; omega),
        fibGoFloat_getD_stable _ _ (i - 2) (by rw [hlen]; omega)]
      rw [fibGoFloat_exact_bridge (i - 1) (by omega)]
      have hseq : FibSeq (fibGo (i - 1) [0, 1]) := by
        refine fibGo_fibSeq _ _ (by simp) ⟨rfl, rfl, ?_⟩
        intro j hj2 hjlt
        simp at hjlt
        omega
      exact hseq.2.2 i hi2 (by rw [fibGo_length]; simp; omega)

theorem fibonacciFloat_spec_witness :
    (0 : Int) ≤ 3 ∧ (3 : Int) ≤ 1000 ∧
    ((fibonacciFloat 3).length = (3 : Int).toNat ∧
      (1 ≤ (3 : Int) → (fibonacciFloat 3).getD 0 0 = 0) ∧
      (2 ≤ (3 : Int) → (fibonacciFloat 3).getD 1 0 = 1) ∧
      (∀ i : Nat, 2 ≤ i → i < (3 : Int).toNat → i ≤ 78 →
        (fibonacciFloat 3).getD i 0 =
          (fibonacciFloat 3).getD (i - 1) 0 + (fibonacciFloat 3).getD (i - 2) 0) ∧
      fibonacciFloat 0 = [] ∧ fibonacciFloat 1 = [0]) :=
  ⟨by decide, by decide, fibonacciFloat_spec 3 (by decide) (by decide)⟩

/-- C5 as stated is false on the code: at the valid input `n = 80` the
program's double additions round, the returned element `f[79]` is
14472334024676220 while `f[78] + f[77] = 14472334024676221`, so the
returned sequence violates the claimed exact recurrence. -/
theorem fibonacci_float_recurrence_fails_at_80 :
    (0 : Int) ≤ 80 ∧ (80 : Int) ≤ 1000 ∧ 2 ≤ 79 ∧ 79 < (80 : Int).toNat ∧
    (fibonacciFloat 80).getD 79 0 = 14472334024676220 ∧
    (fibonacciFloat 80).getD 78 0 + (fibonacciFloat 80).getD 77 0 = 14472334024676221 ∧
    (fibonacciFloat 80).getD 79 0 ≠
      (fibonacciFloat 80).getD (79 - 1) 0 + (fibonacciFloat 80).getD (79 - 2) 0 := by
  decide

/-! ## C7: `lcmOfArray` under faithful double arithmetic -/

/-- One iteration `result = (result * nums[i]) / gcd(result, nums[i])`
(src/index.js line 61) with JavaScript double semantics on integer-valued
doubles.  The product is the binary64 rounding `flInt (r * x)` of the
exact product.  The result is `none` when the computation leaves the
integer-valued finite-double domain: the rounded product reaches
`2 ^ 1024` (the program's value is then `Infinity`, after which its `gcd`
loop runs on `NaN` and never returns); both operands are 0 (the program
computes `0 / 0 = NaN`); or the gcd does not divide the rounded product,
so the program continues on a non-integer double.  When the gcd does
divide the rounded product, the JavaScript division returns exactly that
integer quotient (an exact integer quotient of a representable value by a
small divisor is itself representable). -/
def lcmStepFloat (r x : Int) : Option Int :=
  if 2 ^ 1024 ≤ (flInt (r * x)).natAbs then none
  else if gcd r x = 0 then none
  else if gcd r x ∣ flInt (r * x) then some (flInt (r * x) / gcd r x)
  else none

/-- The `for` loop of `lcmOfArray` (src/index.js lines 60-62) under
double semantics. -/
def lcmFoldFloat : List Int → Int → Option Int
  | [], r => some r
  | x :: t, r =>
    match lcmStepFloat r x with
    | none => none
    | some r' => lcmFoldFloat t r'

/-- Source `lcmOfArray(arr)` (src/index.js lines 55-64) with faithful
JavaScript double arithmetic on integer-valued doubles. -/
def lcmOfArrayFloat : JsVal → Option Int
  | .varr xs =>
    if xs.length = 0 then some 0
    else
      match posIntsOf xs with
      | [] => some 0
      | h :: t => lcmFoldFloat t h
  | _ => some 0

theorem gcd_pos_of_pos_left (r x : Int) (hr : 0 < r) : 0 < gcd r x := by
  rw [gcd_eq_natGcd]
  have h1 : 0 < r.natAbs := by omega
  have : 0 < Nat.gcd r.natAbs x.natAbs := Nat.gcd_pos_of_pos_left _ h1
  omega

theorem gcd_dvd_mul_self (r x : Int) (hr : 0 < r) (hx : 0 < x) : gcd r x ∣ r * x := by
  rw [gcd_eq_natGcd]
  have h1 : r * x = ((r.natAbs * x.natAbs : Nat) : Int) := by
    rw [Int.natCast_mul, Int.natAbs_of_nonneg (le_of_lt hr), Int.natAbs_of_nonneg (le_of_lt hx)]
  rw [h1]
  exact Int.natCast_dvd_natCast.mpr (Dvd.dvd.mul_right (Nat.gcd_dvd_left _ _) _)

theorem lcmStep_dvd_of_dvd (r x M : Int) (hr : 0 < r) (hx : 0 < x) (hM : 0 < M)
    (hrM : r ∣ M) (hxM : x ∣ M) : lcmStep r x ∣ M := by
  obtain ⟨heq, _⟩ := lcmStep_pos_eq r x hr hx
  rw [heq]
  have h1 : Nat.lcm r.natAbs x.natAbs ∣ M.natAbs :=
    Nat.lcm_dvd (Int.natAbs_dvd_natAbs.mpr hrM) (Int.natAbs_dvd_natAbs.mpr hxM)
  have h2 : ((Nat.lcm r.natAbs x.natAbs : Nat) : Int) ∣ ((M.natAbs : Nat) : Int) :=
    Int.natCast_dvd_natCast.mpr h1
  rwa [Int.natAbs_of_nonneg (le_of_lt hM)] at h2

/-- As long as every product in the fold stays below `2 ^ 53`, every
double operation is exact and the rounded fold agrees with the
exact-integer fold.  `M` is any positive common multiple bounding the
intermediate results (they all divide it). -/
theorem lcmFoldFloat_exact (t : List Int) : ∀ r M : Int, 0 < r → 0 < M → r ∣ M →
    (∀ x ∈ t, 0 < x ∧ x ∣ M) → (∀ x ∈ t, M * x < 2 ^ 53) →
    lcmFoldFloat t r = some (t.foldl lcmStep r) := by
  induction t with
  | nil =>
    intro r M _ _ _ _ _
    rfl
  | cons x t ih =>
    intro r M hr hM hrM hall hsmall
    obtain ⟨hx, hxM⟩ := hall x (List.mem_cons_self x t)
    have hrle : r ≤ M := Int.le_of_dvd hM hrM
    have hppos : 0 < r * x := mul_pos hr hx
    have hps : r * x < 2 ^ 53 := by
      calc r * x ≤ M * x := mul_le_mul_of_nonneg_right hrle (le_of_lt hx)
        _ < 2 ^ 53 := hsmall x (List.mem_cons_self x t)
    have hfl : flInt (r * x) = r * x := flInt_small _ (le_of_lt hppos) hps
    have hgpos : 0 < gcd r x := gcd_pos_of_pos_left r x hr
    have hgdvd : gcd r x ∣ r * x := gcd_dvd_mul_self r x hr hx
    have hstep : lcmStepFloat r x = some (lcmStep r x) := by
      rw [lcmStepFloat, hfl]
      have hnotbig : ¬ 2 ^ 1024 ≤ (r * x).natAbs := by
        have e1 : ((2 ^ 53 : Nat) : Int) = 2 ^ 53 := by norm_num
        have e2 : (2 ^ 53 : Nat) ≤ 2 ^ 1024 := by norm_num
        omega
      rw [if_neg hnotbig, if_neg (by omega), if_pos hgdvd]
      rfl
    obtain ⟨_, hspos⟩ := lcmStep_pos_eq r x hr hx
    have hsdvd : lcmStep r x ∣ M := lcmStep_dvd_of_dvd r x M hr hx hM hrM hxM
    rw [lcmFoldFloat, hstep]
    show lcmFoldFloat t (lcmStep r x) = some ((x :: t).foldl lcmStep r)
    simp only [List.foldl_cons]
    exact ih (lcmStep r x) M hspos hM hsdvd
      (fun y hy => hall y (List.mem_cons_of_mem x hy))
      (fun y hy => hsmall y (List.mem_cons_of_mem x hy))

/-- C7 (amended): `lcmOfArray`, with its arithmetic performed in
JavaScript doubles as in the source (faithfully modelled by
`lcmOfArrayFloat`), returns on every non-empty array of strictly
positive integers whose least common multiple times each element stays
below `2 ^ 53` — the condition under which every product of the fold is
exact in double arithmetic — exactly the minimal positive value
divisible by every element of the array; for an empty array or a
non-array input it returns 0.  Outside that range the double product can
round and the result need not even be a common multiple (see
`lcm_float_not_common_multiple`). -/
theorem lcmOfArrayFloat_spec :
    (∀ xs : List Int, xs ≠ [] → (∀ x ∈ xs, 0 < x) →
      (∀ x ∈ xs, lcmOfArray (.varr (xs.map .vnum)) * x < 2 ^ 53) →
      lcmOfArrayFloat (.varr (xs.map .vnum)) = some (lcmOfArray (.varr (xs.map .vnum))) ∧
      0 < lcmOfArray (.varr (xs.map .vnum)) ∧
      (∀ x ∈ xs, x ∣ lcmOfArray (.varr (xs.map .vnum))) ∧
      (∀ m : Int, 0 < m → (∀ x ∈ xs, x ∣ m) → lcmOfArray (.varr (xs.map .vnum)) ≤ m)) ∧
    lcmOfArrayFloat (.varr []) = some 0 ∧
    (∀ v : JsVal, isArrVal v = false → lcmOfArrayFloat v = some 0) := by
  refine ⟨?_, rfl, ?_⟩
  · intro xs hne hpos hsmall
    obtain ⟨hLpos, hLdvd, hLmin⟩ := lcmOfArray_exact_props xs hne hpos
    refine ⟨?_, hLpos, hLdvd, hLmin⟩
    match xs, hne, hpos, hsmall, hLpos, hLdvd with
    | h :: t, _, hpos, hsmall, hLpos, hLdvd =>
      have hh : 0 < h := hpos h (List.mem_cons_self h t)
      have hfloat : lcmOfArrayFloat (.varr ((h :: t).map .vnum)) = lcmFoldFloat t h := by
        rw [lcmOfArrayFloat, if_neg (by simp), posIntsOf_map_vnum _ hpos]
      have hexact : lcmOfArray (.varr ((h :: t).map .vnum)) = t.foldl lcmStep h := by
        rw [lcmOfArray, if_neg (by simp), posIntsOf_map_vnum _ hpos]
      rw [hfloat]
      rw [hexact] at hsmall hLpos hLdvd ⊢
      refine lcmFoldFloat_exact t h (t.foldl lcmStep h) hh hLpos
        (hLdvd h (List.mem_cons_self h t)) ?_ ?_
      · intro y hy
        exact ⟨hpos y (List.mem_cons_of_mem h hy), hLdvd y (List.mem_cons_of_mem h hy)⟩
      · intro y hy
        exact hsmall y (List.mem_cons_of_mem h hy)
  · intro v hv
    match v, hv with
    | .vnum _, _ => rfl
    | .vnumNI, _ => rfl
    | .vstr _, _ => rfl
    | .vbool _, _ => rfl
    | .vnull, _ => rfl
    | .vobj _, _ => rfl

theorem lcmOfArrayFloat_spec_witness :
    ([2] : List Int) ≠ [] ∧ (∀ x ∈ ([2] : List Int), 0 < x) ∧
    (∀ x ∈ ([2] : List Int), lcmOfArray (.varr (([2] : List Int).map .vnum)) * x < 2 ^ 53) ∧
    lcmOfArrayFloat (.varr (([2] : List Int).map .vnum)) =
      some (lcmOfArray (.varr (([2] : List Int).map .vnum))) :=
  ⟨by decide, by decide, by decide,
    (lcmOfArrayFloat_spec.1 [2] (by decide) (by decide) (by decide)).1⟩

/-- C7 as stated is false on the code: for the valid input
`[9007199254740991, 3]` (two strictly positive integers, length within
bounds) the double product `9007199254740991 * 3` rounds to
27021597764222972, and the program returns 27021597764222972 — which is
not divisible by the element 3 and differs from the true least common
multiple `3 * 9007199254740991 = 27021597764222973`. -/
theorem lcm_float_not_common_multiple :
    ([9007199254740991, 3] : List Int) ≠ [] ∧
    (∀ x ∈ ([9007199254740991, 3] : List Int), 0 < x) ∧
    lcmOfArrayFloat (.varr (([9007199254740991, 3] : List Int).map .vnum)) =
      some 27021597764222972 ∧
    ¬ (3 : Int) ∣ 27021597764222972 ∧
    (27021597764222972 : Int) ≠ 3 * 9007199254740991 := by
  refine ⟨by decide, by decide, ?_, by decide, by decide⟩
  have hg : gcd 9007199254740991 3 = 1 := by
    rw [gcd_eq_natGcd]
    decide
  have hfl : flInt ((9007199254740991 : Int) * 3) = 27021597764222972 := by decide
  have hstep : lcmStepFloat 9007199254740991 3 = some 27021597764222972 := by
    rw [lcmStepFloat, hfl, hg]
    decide
  show lcmFoldFloat [3] 9007199254740991 = some 27021597764222972
  rw [lcmFoldFloat, hstep]
  rfl

end Bfhl
